import Mathlib

/-!
# Shallow embedding of `veclist` (`src/lib.rs`)

`VecList<T>` is a vector of slots; `pop` vacates a slot and threads it onto
an intrusive free list, and `push` reuses the most recently freed slot.

Rust panics are modelled by `Option`/`Except` results at the outer level:
a `none` (or `Except.error`) result of an operation means the corresponding
Rust call panics; `some` carries the Rust return value together with the
state after the call (mutation is modelled by explicit state passing).
-/

/-- Node of the list (`enum Node<T>` in the source). -/
inductive Node (T : Type) where
  | Vacant : Option Nat → Node T
  | Occupied : T → Node T
  deriving DecidableEq, Repr

namespace Node

/-- `Node::expect_vacant`: returns the `next` link, panicking (`none`) on an
occupied node. -/
def expect_vacant {T : Type} : Node T → Option (Option Nat)
  | Vacant next => some next
  | Occupied _ => none

/-- `Node::expect_occupied`: returns the value, panicking (`none`) on a
vacant node. -/
def expect_occupied {T : Type} : Node T → Option T
  | Vacant _ => none
  | Occupied value => some value

/-- `Node::free(next)`: on a vacant node returns `None` without mutating;
on an occupied node replaces it with `Vacant(next)` and returns the value.
The result pairs the Rust return value with the node after the call. -/
def free {T : Type} (n : Node T) (next : Option Nat) : Option T × Node T :=
  match n with
  | Vacant k => (none, Vacant k)
  | Occupied value => (some value, Vacant next)

end Node

/-- `struct VecList<T>`: `free` is the head of the free list, `data` the
slots. The `Vec`'s capacity is not observable and is not modelled. -/
structure VecList (T : Type) where
  free : Option Nat
  data : List (Node T)
  deriving DecidableEq, Repr

namespace VecList

/-- `VecList::new`. -/
def new {T : Type} : VecList T :=
  { free := none, data := [] }

/-- `VecList::with_capacity(cap)`: `Vec::with_capacity` produces an empty
vector; the capacity hint has no observable effect. -/
def with_capacity {T : Type} (_cap : Nat) : VecList T :=
  { free := none, data := [] }

/-- `VecList::push(value)`. Returns the index the value was placed at and
the new state, or `none` if the call panics (free head out of bounds, or
`expect_vacant` on an occupied node — impossible in invariant states). -/
def push {T : Type} (l : VecList T) (value : T) : Option (Nat × VecList T) :=
  match l.free with
  | some free =>
    match l.data[free]? with
    | none => none
    | some old =>
      match old.expect_vacant with
      | none => none
      | some next => some (free, { free := next, data := l.data.set free (Node.Occupied value) })
  | none =>
    let data := l.data ++ [Node.Occupied value]
    some (data.length - 1, { free := none, data := data })

/-- `VecList::pop(index)`. The source guards with `index > self.data.len()`
(not `>=`), so `index = len` falls into the access branch where
`self.data[index]` is out of bounds: this is the panicking (`none`) case. -/
def pop {T : Type} (l : VecList T) (index : Nat) : Option (Option T × VecList T) :=
  if index > l.data.length then
    some (none, l)
  else
    match l.data[index]? with
    | none => none
    | some node =>
      match node.free l.free with
      | (none, _) => some (none, l)
      | (some value, node') =>
        some (some value, { free := some index, data := l.data.set index node' })

/-- `VecList::get(index)`. -/
def get {T : Type} (l : VecList T) (index : Nat) : Option T :=
  (l.data[index]?).bind fun node =>
    match node with
    | Node.Vacant _ => none
    | Node.Occupied value => some value

/-- `VecList::get_mut(index)`: observationally it locates the value the same
way `get` does; the state is unchanged by the lookup itself. -/
def get_mut {T : Type} (l : VecList T) (index : Nat) : Option T :=
  (l.data[index]?).bind fun node =>
    match node with
    | Node.Vacant _ => none
    | Node.Occupied value => some value

/-- `VecList::upper_bound`. -/
def upper_bound {T : Type} (l : VecList T) : Nat :=
  l.data.length

/-- `Index<usize> for VecList<T>`: `self.get(index).expect("Expect occupied")`.
A Rust panic is the `Except.error` case. -/
def index {T : Type} (l : VecList T) (i : Nat) : Except String T :=
  match l.get i with
  | some value => Except.ok value
  | none => Except.error "Expect occupied"

/-- `IndexMut<usize> for VecList<T>`: `self.get_mut(index).expect("Expect occupied")`. -/
def index_mut {T : Type} (l : VecList T) (i : Nat) : Except String T :=
  match l.get_mut i with
  | some value => Except.ok value
  | none => Except.error "Expect occupied"

/-! ## The free-list invariant -/

/-- `isChain data head fl` states that `fl` is exactly the sequence of slot
indices obtained by following vacant links starting at `head` until `none`. -/
def isChain {T : Type} (data : List (Node T)) (head : Option Nat) : List Nat → Prop
  | [] => head = none
  | i :: rest =>
    head = some i ∧ ∃ nx, data[i]? = some (Node.Vacant nx) ∧ isChain data nx rest

/-- The structural invariant of `VecList`: the links from `free` trace out a
finite, duplicate-free chain `fl` of in-bounds vacant slots, and every
in-bounds index is either occupied or on that chain. -/
def invariant {T : Type} (l : VecList T) : Prop :=
  ∃ fl : List Nat, isChain l.data l.free fl ∧ fl.Nodup ∧
    ∀ i, i < l.data.length → (∃ v, l.data[i]? = some (Node.Occupied v)) ∨ i ∈ fl

/-! ## Operation sequences used by the LIFO reuse law -/

/-- A fully occupied list of `n` slots holding `vals 0, ..., vals (n-1)`,
with an empty free list. -/
def initFull {T : Type} (vals : Nat → T) (n : Nat) : VecList T :=
  { free := none, data := (List.range n).map fun i => Node.Occupied (vals i) }

/-- Iterated removal: `pop 0`, `pop 1`, ..., `pop (k-1)` in ascending order.
`none` if any of the calls panics. -/
def popAsc {T : Type} (l : VecList T) : Nat → Option (VecList T)
  | 0 => some l
  | k + 1 =>
    match popAsc l k with
    | none => none
    | some l1 =>
      match l1.pop k with
      | none => none
      | some (_, l2) => some l2

/-- Iterated insertion of `ws 0, ..., ws (m-1)`, collecting the returned
indices in order. `none` if any of the calls panics. -/
def pushSeq {T : Type} (ws : Nat → T) (l : VecList T) : Nat → Option (List Nat × VecList T)
  | 0 => some ([], l)
  | m + 1 =>
    match pushSeq ws l m with
    | none => none
    | some (idxs, l1) =>
      match l1.push (ws m) with
      | none => none
      | some (i, l2) => some (idxs ++ [i], l2)

/-- The state of `initFull vals n` after removing indices `0, ..., k-1` in
ascending order: slots below `k` are vacant, chained downward from
`free = k-1`, and the rest still hold their original values. -/
def poppedState {T : Type} (vals : Nat → T) (n k : Nat) : VecList T :=
  { free := if k = 0 then none else some (k - 1),
    data := (List.range n).map fun i =>
      if i < k then Node.Vacant (if i = 0 then none else some (i - 1))
      else Node.Occupied (vals i) }

/-- The state of `poppedState vals n k` after `j` further insertions of
`ws 0, ..., ws (j-1)`: the top `j` freed slots have been refilled from the
highest down, slot `k-1-t` holding `ws t`. -/
def mixState {T : Type} (vals ws : Nat → T) (n k j : Nat) : VecList T :=
  { free := if j < k then some (k - 1 - j) else none,
    data := (List.range n).map fun i =>
      if i < k - j then Node.Vacant (if i = 0 then none else some (i - 1))
      else if i < k then Node.Occupied (ws (k - 1 - i))
      else Node.Occupied (vals i) }

end VecList

namespace VecList

/-! ## Branch lemmas for the operations -/

theorem push_free_none {T : Type} (l : VecList T) (v : T) (h : l.free = none) :
    l.push v = some (l.data.length, { free := none, data := l.data ++ [Node.Occupied v] }) := by
  simp [push, h]

theorem push_free_some {T : Type} (l : VecList T) (v : T) {f : Nat} {nx : Option Nat}
    (h : l.free = some f) (hf : l.data[f]? = some (Node.Vacant nx)) :
    l.push v = some (f, { free := nx, data := l.data.set f (Node.Occupied v) }) := by
  simp [push, h, hf, Node.expect_vacant]

theorem pop_oob {T : Type} (l : VecList T) {i : Nat} (h : l.data.length < i) :
    l.pop i = some (none, l) := by
  simp [pop, h]

theorem pop_at_length {T : Type} (l : VecList T) : l.pop l.data.length = none := by
  simp [pop]

theorem pop_vacant {T : Type} (l : VecList T) {i : Nat} {nx : Option Nat}
    (h : l.data[i]? = some (Node.Vacant nx)) :
    l.pop i = some (none, l) := by
  have hlt : i < l.data.length := by
    rcases List.getElem?_eq_some.mp h with ⟨hl, _⟩
    exact hl
  simp [pop, Nat.not_lt.mpr (Nat.le_of_lt hlt), h, Node.free]

theorem pop_occupied {T : Type} (l : VecList T) {i : Nat} {v : T}
    (h : l.data[i]? = some (Node.Occupied v)) :
    l.pop i = some (some v, { free := some i, data := l.data.set i (Node.Vacant l.free) }) := by
  have hlt : i < l.data.length := by
    rcases List.getElem?_eq_some.mp h with ⟨hl, _⟩
    exact hl
  simp [pop, Nat.not_lt.mpr (Nat.le_of_lt hlt), h, Node.free]

theorem get_eq_some_iff {T : Type} (l : VecList T) (i : Nat) (v : T) :
    l.get i = some v ↔ l.data[i]? = some (Node.Occupied v) := by
  unfold get
  cases hd : l.data[i]? with
  | none => simp
  | some node =>
    cases node with
    | Vacant nx => simp
    | Occupied w => simp

theorem get_mut_eq_get {T : Type} (l : VecList T) (i : Nat) : l.get_mut i = l.get i := rfl

theorem isChain_mem_vacant {T : Type} {data : List (Node T)} {head : Option Nat}
    {fl : List Nat} (hc : isChain data head fl) {i : Nat} (hi : i ∈ fl) :
    ∃ nx, data[i]? = some (Node.Vacant nx) := by
  induction fl generalizing head with
  | nil => cases hi
  | cons j rest ih =>
    rcases hc with ⟨_, nx, hj, hrest⟩
    rcases List.mem_cons.mp hi with h | h
    · cases h
      exact ⟨nx, hj⟩
    · exact ih hrest h

theorem isChain_set_not_mem {T : Type} {data : List (Node T)} {head : Option Nat}
    {fl : List Nat} (hc : isChain data head fl) {i : Nat} (hi : i ∉ fl) (x : Node T) :
    isChain (data.set i x) head fl := by
  induction fl generalizing head with
  | nil => exact hc
  | cons j rest ih =>
    rcases hc with ⟨hh, nx, hj, hrest⟩
    refine ⟨hh, nx, ?_, ?_⟩
    · have hij : i ≠ j := fun h => hi (by rw [h]; exact List.mem_cons_self j rest)
      rw [List.getElem?_set_ne hij]
      exact hj
    · exact ih hrest (fun h => hi (List.mem_cons_of_mem j h))

theorem isChain_append {T : Type} {data : List (Node T)} {head : Option Nat}
    {fl : List Nat} (hc : isChain data head fl) (l2 : List (Node T)) :
    isChain (data ++ l2) head fl := by
  induction fl generalizing head with
  | nil => exact hc
  | cons j rest ih =>
    rcases hc with ⟨hh, nx, hj, hrest⟩
    have hlt : j < data.length := (List.getElem?_eq_some.mp hj).1
    exact ⟨hh, nx, by rw [List.getElem?_append_left hlt]; exact hj, ih hrest⟩

theorem invariant_new {T : Type} : invariant (new : VecList T) := by
  refine ⟨[], rfl, List.nodup_nil, ?_⟩
  intro i hi
  simp [new] at hi

theorem invariant_with_capacity {T : Type} (n : Nat) :
    invariant (with_capacity n : VecList T) := by
  refine ⟨[], rfl, List.nodup_nil, ?_⟩
  intro i hi
  simp [with_capacity] at hi

theorem invariant_push {T : Type} {l : VecList T} (hl : invariant l) (v : T)
    {i : Nat} {l' : VecList T} (h : l.push v = some (i, l')) : invariant l' := by
  rcases hl with ⟨fl, hc, hnd, hcov⟩
  cases fl with
  | nil =>
    have hfree : l.free = none := hc
    rw [push_free_none l v hfree] at h
    cases h
    refine ⟨[], rfl, List.nodup_nil, ?_⟩
    intro j hj
    simp only [List.length_append, List.length_cons, List.length_nil] at hj
    by_cases hjl : j < l.data.length
    · rcases hcov j hjl with ⟨w, hw⟩ | hmem
      · exact Or.inl ⟨w, by rw [List.getElem?_append_left hjl]; exact hw⟩
      · cases hmem
    · have hj_eq : j = l.data.length := by omega
      subst hj_eq
      exact Or.inl ⟨v, List.getElem?_concat_length l.data (Node.Occupied v)⟩
  | cons f rest =>
    rcases hc with ⟨hfree, nx, hf, hrest⟩
    rw [push_free_some l v hfree hf] at h
    cases h
    have hfnotmem : i ∉ rest := (List.nodup_cons.mp hnd).1
    have hflt : i < l.data.length := (List.getElem?_eq_some.mp hf).1
    refine ⟨rest, isChain_set_not_mem hrest hfnotmem _, (List.nodup_cons.mp hnd).2, ?_⟩
    intro k hk
    simp only [List.length_set] at hk
    by_cases hkf : k = i
    · subst hkf
      exact Or.inl ⟨v, List.getElem?_set_eq_of_lt (Node.Occupied v) hflt⟩
    · rcases hcov k hk with ⟨w, hw⟩ | hmem
      · exact Or.inl ⟨w, by rw [List.getElem?_set_ne (fun hfk => hkf hfk.symm)]; exact hw⟩
      · rcases List.mem_cons.mp hmem with h | h
        · exact absurd h hkf
        · exact Or.inr h

theorem invariant_pop {T : Type} {l : VecList T} (hl : invariant l) (idx : Nat)
    {r : Option T} {l' : VecList T} (h : l.pop idx = some (r, l')) : invariant l' := by
  rcases hl with ⟨fl, hc, hnd, hcov⟩
  by_cases hb : l.data.length < idx
  · rw [pop_oob l hb] at h
    cases h
    exact ⟨fl, hc, hnd, hcov⟩
  · cases hd : l.data[idx]? with
    | none =>
      have : l.pop idx = none := by simp [pop, hb, hd]
      rw [this] at h
      cases h
    | some node =>
      cases node with
      | Vacant nx =>
        rw [pop_vacant l hd] at h
        cases h
        exact ⟨fl, hc, hnd, hcov⟩
      | Occupied v =>
        rw [pop_occupied l hd] at h
        cases h
        have hidxlt : idx < l.data.length := (List.getElem?_eq_some.mp hd).1
        have hnotmem : idx ∉ fl := by
          intro hmem
          rcases isChain_mem_vacant hc hmem with ⟨nx, hnx⟩
          rw [hd] at hnx
          cases hnx
        refine ⟨idx :: fl, ?_, List.nodup_cons.mpr ⟨hnotmem, hnd⟩, ?_⟩
        · exact ⟨rfl, l.free, List.getElem?_set_eq_of_lt _ hidxlt, isChain_set_not_mem hc hnotmem _⟩
        · intro k hk
          simp only [List.length_set] at hk
          by_cases hkidx : k = idx
          · exact Or.inr (by rw [hkidx]; exact List.mem_cons_self idx fl)
          · rcases hcov k hk with ⟨w, hw⟩ | hmem
            · exact Or.inl ⟨w, by rw [List.getElem?_set_ne (fun hik => hkidx hik.symm)]; exact hw⟩
            · exact Or.inr (List.mem_cons_of_mem idx hmem)

theorem invariant_push_succeeds {T : Type} {l : VecList T} (hl : invariant l) (v : T) :
    ∃ i l', l.push v = some (i, l') := by
  rcases hl with ⟨fl, hc, _, _⟩
  cases fl with
  | nil => exact ⟨_, _, push_free_none l v hc⟩
  | cons f rest =>
    rcases hc with ⟨hfree, nx, hf, _⟩
    exact ⟨_, _, push_free_some l v hfree hf⟩

/-! ## Lemmas about the LIFO pop/push sequences -/

theorem getElem?_map_range {α : Type} (n i : Nat) (f : Nat → α) :
    ((List.range n).map f)[i]? = if i < n then some (f i) else none := by
  rw [List.getElem?_map]
  by_cases h : i < n
  · rw [List.getElem?_range h]
    simp [h]
  · rw [List.getElem?_eq_none_iff.mpr (by simpa using Nat.le_of_not_lt h)]
    simp [h]

theorem map_range_set {α : Type} (n k : Nat) (f : Nat → α) (v : α) (hk : k < n) :
    ((List.range n).map f).set k v =
      (List.range n).map fun i => if i = k then v else f i := by
  apply List.ext_getElem?_iff.mpr
  intro i
  by_cases hik : i = k
  · subst hik
    rw [List.getElem?_set_eq_of_lt v (by simpa using hk), getElem?_map_range]
    simp [hk]
  · rw [List.getElem?_set_ne (fun h => hik h.symm), getElem?_map_range, getElem?_map_range]
    by_cases hin : i < n <;> simp [hin, hik]

theorem map_range_congr {α : Type} (n : Nat) (f g : Nat → α)
    (h : ∀ i, i < n → f i = g i) :
    (List.range n).map f = (List.range n).map g :=
  List.map_eq_map_iff.mpr fun i hi => h i (List.mem_range.mp hi)

theorem poppedState_zero {T : Type} (vals : Nat → T) (n : Nat) :
    poppedState vals n 0 = initFull vals n := by
  unfold poppedState initFull
  simp

theorem pop_step {T : Type} (vals : Nat → T) {n k : Nat} (hk : k < n) :
    (poppedState vals n k).pop k = some (some (vals k), poppedState vals n (k + 1)) := by
  have hdata : (poppedState vals n k).data[k]? = some (Node.Occupied (vals k)) := by
    unfold poppedState
    rw [getElem?_map_range]
    simp [hk]
  rw [pop_occupied _ hdata]
  have hstate : VecList.mk (some k)
      ((poppedState vals n k).data.set k (Node.Vacant (poppedState vals n k).free)) =
        poppedState vals n (k + 1) := by
    unfold poppedState
    refine congrArg₂ VecList.mk ?_ ?_
    · simp
    · rw [map_range_set _ _ _ _ hk]
      apply map_range_congr
      intro i hi
      by_cases hik : i = k
      · subst hik
        simp [Nat.lt_succ_self]
      · by_cases hlt : i < k
        · rw [if_neg hik, if_pos hlt, if_pos (by omega : i < k + 1)]
        · rw [if_neg hik, if_neg hlt, if_neg (by omega : ¬ i < k + 1)]
  rw [hstate]

theorem popAsc_spec {T : Type} (vals : Nat → T) {n k : Nat} (hk : k ≤ n) :
    popAsc (initFull vals n) k = some (poppedState vals n k) := by
  induction k with
  | zero =>
    rw [popAsc, poppedState_zero]
  | succ k ih =>
    rw [popAsc]
    simp only [ih (by omega), pop_step vals (by omega : k < n)]

theorem mixState_zero {T : Type} (vals ws : Nat → T) (n k : Nat) :
    mixState vals ws n k 0 = poppedState vals n k := by
  unfold mixState poppedState
  refine congrArg₂ VecList.mk ?_ ?_
  · by_cases hk : k = 0 <;> simp [hk]
  · apply map_range_congr
    intro i hi
    by_cases hik : i < k <;> simp [hik]

theorem push_step {T : Type} (vals ws : Nat → T) {n k j : Nat} (hjk : j < k) (hkn : k ≤ n) :
    (mixState vals ws n k j).push (ws j) =
      some (k - 1 - j, mixState vals ws n k (j + 1)) := by
  have hfree : (mixState vals ws n k j).free = some (k - 1 - j) := by
    unfold mixState
    simp [hjk]
  have hdata : (mixState vals ws n k j).data[(k - 1 - j)]? =
      some (Node.Vacant (if k - 1 - j = 0 then none else some (k - 1 - j - 1))) := by
    unfold mixState
    rw [getElem?_map_range]
    simp [(by omega : k - 1 - j < n), (by omega : k - 1 - j < k - j)]
  rw [push_free_some _ _ hfree hdata]
  have hstate : VecList.mk (if k - 1 - j = 0 then none else some (k - 1 - j - 1))
      ((mixState vals ws n k j).data.set (k - 1 - j) (Node.Occupied (ws j))) =
        mixState vals ws n k (j + 1) := by
    unfold mixState
    refine congrArg₂ VecList.mk ?_ ?_
    · by_cases hjk1 : j + 1 < k
      · rw [if_neg (by omega : ¬ k - 1 - j = 0), if_pos hjk1,
          (by omega : k - 1 - j - 1 = k - 1 - (j + 1))]
      · rw [if_pos (by omega : k - 1 - j = 0), if_neg hjk1]
    · rw [map_range_set _ _ _ _ (by omega : k - 1 - j < n)]
      apply map_range_congr
      intro i hi
      by_cases hik : i = k - 1 - j
      · subst hik
        rw [if_pos rfl, if_neg (by omega : ¬ k - 1 - j < k - (j + 1)),
          if_pos (by omega : k - 1 - j < k), (by omega : k - 1 - (k - 1 - j) = j)]
      · rw [if_neg hik]
        have h1 : i < k - j ↔ i < k - (j + 1) := by omega
        by_cases hlt : i < k - j
        · rw [if_pos hlt, if_pos (h1.mp hlt)]
        · rw [if_neg hlt, if_neg (fun hcon => hlt (h1.mpr hcon))]
  rw [hstate]

theorem pushSeq_spec {T : Type} (vals ws : Nat → T) {n k j : Nat} (hj : j ≤ k) (hkn : k ≤ n) :
    pushSeq ws (poppedState vals n k) j =
      some ((List.range j).map (fun t => k - 1 - t), mixState vals ws n k j) := by
  induction j with
  | zero =>
    rw [pushSeq, mixState_zero]
    simp
  | succ j ih =>
    rw [pushSeq]
    simp only [ih (by omega), push_step vals ws (by omega : j < k) hkn,
      List.range_succ, List.map_append, List.map_cons, List.map_nil]

/-! ## Inversion lemmas -/

theorem push_inv {T : Type} {l : VecList T} {v : T} {i : Nat} {l' : VecList T}
    (h : l.push v = some (i, l')) :
    (l.free = none ∧ i = l.data.length ∧ l' = VecList.mk none (l.data ++ [Node.Occupied v])) ∨
    (∃ nx, l.free = some i ∧ l.data[i]? = some (Node.Vacant nx) ∧
      l' = VecList.mk nx (l.data.set i (Node.Occupied v))) := by
  unfold push at h
  cases hfree : l.free with
  | none =>
    rw [hfree] at h
    simp only [] at h
    cases h with
    | refl => exact Or.inl ⟨rfl, by simp, by simp⟩
  | some f =>
    rw [hfree] at h
    simp only [] at h
    cases hd : l.data[f]? with
    | none =>
      rw [hd] at h
      cases h
    | some old =>
      rw [hd] at h
      cases old with
      | Vacant nx =>
        simp only [Node.expect_vacant] at h
        cases h with
        | refl => exact Or.inr ⟨nx, rfl, hd, rfl⟩
      | Occupied w =>
        simp only [Node.expect_vacant] at h
        cases h

theorem pop_inv {T : Type} {l : VecList T} {idx : Nat} {r : Option T} {l' : VecList T}
    (h : l.pop idx = some (r, l')) :
    (r = none ∧ l' = l) ∨
    (∃ v, r = some v ∧ l.data[idx]? = some (Node.Occupied v) ∧
      l' = VecList.mk (some idx) (l.data.set idx (Node.Vacant l.free))) := by
  unfold pop at h
  by_cases hb : l.data.length < idx
  · rw [if_pos hb] at h
    cases h with
    | refl => exact Or.inl ⟨rfl, rfl⟩
  · rw [if_neg hb] at h
    cases hd : l.data[idx]? with
    | none =>
      rw [hd] at h
      cases h
    | some node =>
      rw [hd] at h
      cases node with
      | Vacant nx =>
        simp only [Node.free] at h
        cases h with
        | refl => exact Or.inl ⟨rfl, rfl⟩
      | Occupied v =>
        simp only [Node.free] at h
        cases h with
        | refl => exact Or.inr ⟨v, rfl, rfl, rfl⟩

theorem invariant_free_head {T : Type} {l : VecList T} (hl : invariant l)
    {f : Nat} (hf : l.free = some f) :
    ∃ nx, l.data[f]? = some (Node.Vacant nx) := by
  rcases hl with ⟨fl, hc, _, _⟩
  cases fl with
  | nil =>
    have hnone : l.free = none := hc
    rw [hnone] at hf
    cases hf
  | cons g rest =>
    rcases hc with ⟨hfree, nx, hg, _⟩
    rw [hfree] at hf
    cases hf
    exact ⟨nx, hg⟩

/-! ## Claim theorems -/

/-- C1: the spec requires `pop(index)` to return absent without attempting
access for every index outside bounds, including `index = upper_bound()`
exactly. The code guards with `index > len` instead of `index >= len`, so at
`index = upper_bound()` it evaluates `self.data[index]` out of bounds and
panics (the `none` result of the embedding) instead of returning absent. -/
theorem C1_pop_at_upper_bound_panics {T : Type} (l : VecList T) :
    l.pop l.upper_bound = none :=
  pop_at_length l

/-- C2: LIFO reuse law. Starting from `n` occupied slots, removing indices
`0, ..., k-1` in ascending order and then performing `k` insertions places
the j-th insertion (0-indexed) at index `k-1-j`, and each index `i < k` ends
up holding the `(k-1-i)`-th newly inserted value. -/
theorem C2_lifo_reuse {T : Type} (vals ws : Nat → T) (n k : Nat) (hk : k ≤ n) :
    ∃ s1, popAsc (initFull vals n) k = some s1 ∧
      ∃ idxs s2, pushSeq ws s1 k = some (idxs, s2) ∧
        idxs = (List.range k).map (fun j => k - 1 - j) ∧
        ∀ i, i < k → s2.get i = some (ws (k - 1 - i)) := by
  refine ⟨poppedState vals n k, popAsc_spec vals hk,
    (List.range k).map (fun j => k - 1 - j), mixState vals ws n k k,
    pushSeq_spec vals ws (le_refl k) hk, rfl, ?_⟩
  intro i hi
  rw [get_eq_some_iff]
  unfold mixState
  rw [getElem?_map_range, if_pos (by omega : i < n),
    if_neg (by omega : ¬ i < k - k), if_pos hi]

theorem C2_lifo_reuse_witness :
    2 ≤ 3 ∧
    ∃ s1, popAsc (initFull (fun i => i) 3) 2 = some s1 ∧
      ∃ idxs s2, pushSeq (fun j => j + 10) s1 2 = some (idxs, s2) ∧
        idxs = (List.range 2).map (fun j => 2 - 1 - j) ∧
        ∀ i, i < 2 → s2.get i = some ((fun j => j + 10) (2 - 1 - i)) :=
  ⟨by decide, C2_lifo_reuse (fun i => i) (fun j => j + 10) 3 2 (by decide)⟩

/-- C3: `push(value)` either reuses the slot at `free_head` — which was
`Vacant` with link `next` — overwriting it with `Occupied(value)`, setting
`free_head = next` and returning that index, or, with no free head, appends
`Occupied(value)` and returns the new last index `len(storage) - 1`. -/
theorem C3_push_spec {T : Type} (l : VecList T) (v : T) :
    (l.free = none →
      l.push v = some (l.data.length, VecList.mk none (l.data ++ [Node.Occupied v])) ∧
      l.data.length = (l.data ++ [Node.Occupied v]).length - 1) ∧
    ∀ i nx, l.free = some i → l.data[i]? = some (Node.Vacant nx) →
      l.push v = some (i, VecList.mk nx (l.data.set i (Node.Occupied v))) := by
  constructor
  · intro hfree
    exact ⟨push_free_none l v hfree, by simp⟩
  · intro i nx hfree hd
    exact push_free_some l v hfree hd

theorem C3_push_spec_witness :
    (VecList.mk (some 0) [Node.Vacant none] : VecList Nat).free = some 0 ∧
    (VecList.mk (some 0) [Node.Vacant none] : VecList Nat).data[0]? =
      some (Node.Vacant none) ∧
    (VecList.mk (some 0) [Node.Vacant none] : VecList Nat).push 7 =
      some (0, VecList.mk none [Node.Occupied 7]) :=
  ⟨rfl, rfl, (C3_push_spec (VecList.mk (some 0) [Node.Vacant none]) 7).2 0 none rfl rfl⟩

/-- C4: the free-list invariant — every in-bounds index is occupied or on
the acyclic, duplicate-free chain reachable from `free_head`, and
`free_head` (when present) refers to a `Vacant` slot — holds for `new` and
`with_capacity`, and is preserved by every `push` and `pop` that returns.
`get` and `get_mut` construct no new state in the embedding, so they
preserve the invariant trivially. -/
theorem C4_invariant_preserved {T : Type} (n : Nat) (l : VecList T) (hl : invariant l) :
    invariant (new : VecList T) ∧ invariant (with_capacity n : VecList T) ∧
    (∀ v i l', l.push v = some (i, l') → invariant l') ∧
    (∀ idx r l', l.pop idx = some (r, l') → invariant l') ∧
    (∀ f, l.free = some f → ∃ nx, l.data[f]? = some (Node.Vacant nx)) :=
  ⟨invariant_new, invariant_with_capacity n,
    fun v _ _ h => invariant_push hl v h,
    fun idx _ _ h => invariant_pop hl idx h,
    fun _ hf => invariant_free_head hl hf⟩

theorem C4_invariant_preserved_witness :
    invariant (VecList.mk none [Node.Occupied (5 : Nat)]) :=
  (C4_invariant_preserved 0 (VecList.new : VecList Nat) invariant_new).2.2.1 5 0
    (VecList.mk none [Node.Occupied 5]) rfl

/-- C5: `get(index)` (and `get_mut(index)`) returns the stored value iff
`index` is in bounds and the slot is `Occupied`, and absent otherwise; the
lookups are pure in the embedding (no state change) and total (no panic). -/
theorem C5_get_spec {T : Type} (l : VecList T) (i : Nat) :
    (∀ v, l.get i = some v ↔ i < l.upper_bound ∧ l.data[i]? = some (Node.Occupied v)) ∧
    l.get_mut i = l.get i := by
  constructor
  · intro v
    rw [get_eq_some_iff]
    constructor
    · intro h
      exact ⟨(List.getElem?_eq_some.mp h).1, h⟩
    · exact And.right
  · exact get_mut_eq_get l i

theorem C5_get_spec_witness :
    (VecList.new : VecList Nat).get_mut 0 = (VecList.new : VecList Nat).get 0 :=
  (C5_get_spec (VecList.new : VecList Nat) 0).2

/-- C6: `pop(index)` on an in-bounds `Vacant` slot returns absent and
returns the state entirely unchanged — hence `upper_bound()`, `free_head`
and every slot are untouched, and a second call on the same index observes
the same `Vacant` slot and again returns absent (idempotent-safe). -/
theorem C6_pop_vacant_noop {T : Type} (l : VecList T) (i : Nat) (nx : Option Nat)
    (_h1 : i < l.upper_bound) (h2 : l.data[i]? = some (Node.Vacant nx)) :
    l.pop i = some (none, l) :=
  pop_vacant l h2

theorem C6_pop_vacant_noop_witness :
    0 < (VecList.mk (some 0) [Node.Vacant none] : VecList Nat).upper_bound ∧
    (VecList.mk (some 0) [Node.Vacant none] : VecList Nat).data[0]? =
      some (Node.Vacant none) ∧
    (VecList.mk (some 0) [Node.Vacant none] : VecList Nat).pop 0 =
      some (none, VecList.mk (some 0) [Node.Vacant none]) :=
  ⟨by decide, rfl, C6_pop_vacant_noop _ 0 none (by decide) rfl⟩

/-- C7: the `Index`/`IndexMut` accessors return the stored value exactly
when the slot at `index` is `Occupied`, and terminate fatally (the
`Except.error` case, a panic in Rust) when the index is out of bounds or
the slot is `Vacant` — never yielding a default value. -/
theorem C7_index_spec {T : Type} (l : VecList T) (i : Nat) :
    ((∀ v, l.data[i]? = some (Node.Occupied v) → l.index i = Except.ok v) ∧
     (l.get i = none → l.index i = Except.error "Expect occupied") ∧
     ∀ v, l.index i = Except.ok v → l.data[i]? = some (Node.Occupied v)) ∧
    ((∀ v, l.data[i]? = some (Node.Occupied v) → l.index_mut i = Except.ok v) ∧
     (l.get_mut i = none → l.index_mut i = Except.error "Expect occupied") ∧
     ∀ v, l.index_mut i = Except.ok v → l.data[i]? = some (Node.Occupied v)) := by
  have hmain : (∀ v, l.data[i]? = some (Node.Occupied v) → l.index i = Except.ok v) ∧
      (l.get i = none → l.index i = Except.error "Expect occupied") ∧
      ∀ v, l.index i = Except.ok v → l.data[i]? = some (Node.Occupied v) := by
    refine ⟨?_, ?_, ?_⟩
    · intro v hv
      unfold index
      rw [(get_eq_some_iff l i v).mpr hv]
    · intro hg
      unfold index
      rw [hg]
    · intro v hv
      unfold index at hv
      cases hg : l.get i with
      | none =>
        rw [hg] at hv
        cases hv
      | some w =>
        rw [hg] at hv
        cases hv
        exact (get_eq_some_iff l i _).mp hg
  exact ⟨hmain, hmain⟩

theorem C7_index_spec_witness :
    (VecList.new : VecList Nat).get 0 = none ∧
    (VecList.new : VecList Nat).index 0 = Except.error "Expect occupied" :=
  ⟨rfl, (C7_index_spec (VecList.new : VecList Nat) 0).1.2.1 rfl⟩

/-- C8: `upper_bound()` is monotone under each completed operation: a
`push` never decreases it, increasing it by exactly 1 when there is no free
slot and leaving it unchanged when a free slot is reused, and a completed
`pop` always leaves it unchanged. `get`/`get_mut` construct no new state in
the embedding. -/
theorem C8_upper_bound_monotone {T : Type} (l : VecList T) :
    (∀ v i l', l.push v = some (i, l') →
      l.upper_bound ≤ l'.upper_bound ∧
      (l.free = none → l'.upper_bound = l.upper_bound + 1) ∧
      (∀ f, l.free = some f → l'.upper_bound = l.upper_bound)) ∧
    ∀ idx r l', l.pop idx = some (r, l') → l'.upper_bound = l.upper_bound := by
  constructor
  · intro v i l' h
    rcases push_inv h with ⟨hfree, hi, hl'⟩ | ⟨nx, hfree, hd, hl'⟩
    · subst hl'
      refine ⟨?_, fun _ => ?_, fun f hf => ?_⟩
      · simp only [upper_bound, List.length_append, List.length_cons, List.length_nil]
        omega
      · simp only [upper_bound, List.length_append, List.length_cons, List.length_nil]
      · rw [hfree] at hf
        cases hf
    · subst hl'
      refine ⟨?_, fun hc => ?_, fun f hf => ?_⟩
      · simp [upper_bound, List.length_set]
      · rw [hfree] at hc
        cases hc
      · simp [upper_bound, List.length_set]
  · intro idx r l' h
    rcases pop_inv h with ⟨_, hl'⟩ | ⟨v, _, hd, hl'⟩
    · subst hl'
      rfl
    · subst hl'
      simp [upper_bound, List.length_set]

theorem C8_upper_bound_monotone_witness :
    (VecList.new : VecList Nat).push 5 = some (0, VecList.mk none [Node.Occupied 5]) ∧
    (VecList.mk none [Node.Occupied 5] : VecList Nat).upper_bound =
      (VecList.new : VecList Nat).upper_bound + 1 :=
  ⟨rfl, ((C8_upper_bound_monotone (VecList.new : VecList Nat)).1 5 0
    (VecList.mk none [Node.Occupied 5]) rfl).2.1 rfl⟩

/-- C9: `with_capacity(n)` is observationally identical to `new()` for every
`n`: same structure, `upper_bound()` 0, no free head, and `get` absent at
every index; the capacity argument has no logical effect in the model. -/
theorem C9_with_capacity_spec {T : Type} (n : Nat) :
    (with_capacity n : VecList T) = new ∧
    (with_capacity n : VecList T).upper_bound = 0 ∧
    (with_capacity n : VecList T).free = none ∧
    ∀ i, (with_capacity n : VecList T).get i = none :=
  ⟨rfl, rfl, rfl, fun _ => rfl⟩

theorem C9_with_capacity_spec_witness :
    (with_capacity 5 : VecList Nat) = new :=
  (C9_with_capacity_spec 5).1

/-- C10: from any state satisfying the free-list invariant, `push v`
completes, the returned index is strictly below the new `upper_bound()`,
and `get` at that index immediately returns `v`. -/
theorem C10_push_get {T : Type} (l : VecList T) (v : T) (hl : invariant l) :
    ∃ i l', l.push v = some (i, l') ∧ i < l'.upper_bound ∧ l'.get i = some v := by
  obtain ⟨i, l', h⟩ := invariant_push_succeeds hl v
  refine ⟨i, l', h, ?_, ?_⟩
  · rcases push_inv h with ⟨hfree, hi, hl'⟩ | ⟨nx, hfree, hd, hl'⟩
    · subst hl'
      subst hi
      simp only [upper_bound, List.length_append, List.length_cons, List.length_nil]
      omega
    · subst hl'
      have hb : i < l.data.length := (List.getElem?_eq_some.mp hd).1
      simpa [upper_bound, List.length_set] using hb
  · rcases push_inv h with ⟨hfree, hi, hl'⟩ | ⟨nx, hfree, hd, hl'⟩
    · subst hl'
      subst hi
      rw [get_eq_some_iff]
      exact List.getElem?_concat_length l.data (Node.Occupied v)
    · subst hl'
      rw [get_eq_some_iff]
      exact List.getElem?_set_eq_of_lt _ (List.getElem?_eq_some.mp hd).1

theorem C10_push_get_witness :
    ∃ i l', (VecList.new : VecList Nat).push 5 = some (i, l') ∧
      i < l'.upper_bound ∧ l'.get i = some 5 :=
  C10_push_get (VecList.new : VecList Nat) 5 invariant_new

end VecList
